import Mathlib

/-!
Verification of the graph layout engine of the Rassam repository.

The engine is the function `getLayoutedElements` in
`src/app/api/repo/route.ts`: it sizes each node with a caller-side
policy (`getNodeDimensions`), submits nodes and edges to a layered
graph-layout library, and converts the engine-computed centers into
top-left positions spread back onto the input nodes.

The layered layout library itself (rank assignment, within-rank
ordering, coordinate assignment) is a third-party dependency whose
source is not part of this repository; it is modelled here from the
specification's design-level algorithm description (rank = longest path
from sources, deterministic within-rank order, cumulative coordinate
sums with the configured separations, orientation by axis swap).
Definitions carrying that model say so in their doc comments.

Coordinates are rationals, so the half-width / half-height output
transform is exact.
-/

/-- A 2D point, as produced in the `position` field of a laid-out node. -/
structure Point where
  x : Rat
  y : Rat
deriving DecidableEq, Repr

/-- The `data` payload of a React Flow node as read by the layout code:
`node.data?.files` may be absent; all other payload fields are opaque to
the engine and collected in `rest`. -/
structure NodeData where
  files : Option (List String)
  rest : String
deriving DecidableEq, Repr

/-- A React Flow node as handled by `getLayoutedElements`: the code reads
`node.id` and `node.data?.files?.length`, overwrites `node.position`,
and spreads every other field through unchanged.  `width`/`height` model
payload dimension fields that the layout code never reads, and `rest`
stands for all remaining opaque payload. -/
structure FlowNode where
  id : String
  data : Option NodeData
  position : Option Point
  width : Option Rat
  height : Option Rat
  rest : String
deriving DecidableEq, Repr

/-- A React Flow edge as handled by `getLayoutedElements`: the code reads
`edge.source` and `edge.target`; every other field is opaque payload. -/
structure FlowEdge where
  source : String
  target : String
  rest : String
deriving DecidableEq, Repr

/-- `getNodeDimensions` from `route.ts`: base 280×100, plus 30 extra
height when the node's file list has length strictly greater than 5
(a missing `data` or missing `files` counts as length 0, matching
`node.data?.files?.length || 0`). -/
def getNodeDimensions (n : FlowNode) : Rat × Rat :=
  let baseWidth : Rat := 280
  let baseHeight : Rat := 100
  let filesCount := ((n.data.bind NodeData.files).getD []).length
  let extraHeight : Rat := if filesCount > 5 then 30 else 0
  (baseWidth, baseHeight + extraHeight)

/-- The signature of a node as stored in the layout library's graph:
its id together with the width and height the caller set for it. -/
abbrev Sig := String × Rat × Rat

/-- A directed edge of the layout library's graph, as a pair of ids. -/
abbrev Pair := String × String

/-- The node signatures submitted to the layout library, in input order. -/
def sigs (ns : List FlowNode) : List Sig :=
  ns.map (fun n => (n.id, getNodeDimensions n))

/-- Modelled from the spec: the edges the layout engine actually ranks.
The spec requires an edge with a dangling endpoint (an id not in the
node set) to be dropped or ignored without error, and the engine to be
total over self-loops; both are removed here before ranking. -/
def keptPairs (ids : List String) (es : List FlowEdge) : List Pair :=
  (es.filter (fun e => ids.contains e.source && ids.contains e.target
      && e.source != e.target)).map (fun e => (e.source, e.target))

/-- Modelled from the spec: longest-path rank assignment.  `lpRank E k v`
is the length of the longest directed path in `E` ending at `v` that
uses at most `k` edges (0 when no edge enters `v`).  On a DAG this
reaches, for `k` at least the node count, the spec's rank: the longest
path length from any in-degree-0 source to `v`.  The fuel keeps the
computation total on cyclic inputs, for which the spec leaves the exact
cycle-breaking policy open. -/
def lpRank (E : List Pair) : Nat → String → Nat
  | 0, _ => 0
  | k + 1, v =>
      (E.filterMap (fun p => if p.2 = v then some (lpRank E k p.1 + 1) else none)).foldr
        Nat.max 0

/-- Modelled from the spec: the rank assigned to id `v`, computed with
fuel equal to the number of submitted nodes. -/
def nodeRank (S : List Sig) (E : List Pair) (v : String) : Nat :=
  lpRank E S.length v

/-- The extent of a node along the rank axis: height when ranks grow
downward (TB), width when they grow rightward (LR). -/
def rankDim (dir : String) (s : Sig) : Rat :=
  if dir = "LR" then s.2.1 else s.2.2

/-- The extent of a node along the order axis: width for TB, height for LR. -/
def orderDim (dir : String) (s : Sig) : Rat :=
  if dir = "LR" then s.2.2 else s.2.1

/-- Modelled from the spec: the signatures sharing rank `r`, kept in
submission order (the spec requires only a fixed deterministic
within-rank order; the crossing-reduction heuristic is left open). -/
def rankSigs (S : List Sig) (E : List Pair) (r : Nat) : List Sig :=
  S.filter (fun s => nodeRank S E s.1 == r)

/-- The largest rank-axis extent among the nodes of rank `r` (0 for an
empty rank). -/
def maxRankDim (S : List Sig) (E : List Pair) (dir : String) (r : Nat) : Rat :=
  (rankSigs S E r).foldr (fun s m => max (rankDim dir s) m) 0

/-- Modelled from the spec: the rank-axis coordinate where the band of
rank `r` starts: the margin (50) plus, for each preceding rank, its
largest extent plus the rank separation (100). -/
def rankStart (S : List Sig) (E : List Pair) (dir : String) : Nat → Rat
  | 0 => 50
  | r + 1 => rankStart S E dir r + maxRankDim S E dir r + 100

/-- Modelled from the spec: walk a rank's node list accumulating the
order-axis coordinate: each node starts where the previous one ended
plus the node separation (80); the first starts at the margin via the
initial accumulator.  Returns the accumulator if `v` is not found. -/
def orderScan (dir : String) (l : List Sig) (v : String) (acc : Rat) : Rat :=
  match l with
  | [] => acc
  | s :: rest =>
      if s.1 = v then acc else orderScan dir rest v (acc + orderDim dir s + 80)

/-- Modelled from the spec: the order-axis coordinate where node `v` of
rank list `l` starts, beginning at the margin (50). -/
def orderStart (dir : String) (l : List Sig) (v : String) : Rat :=
  orderScan dir l v 50

/-- The signature stored for id `v` (the submitted dimensions); a default
for ids never submitted. -/
def sigOf (S : List Sig) (v : String) : Sig :=
  (S.find? (fun s => s.1 = v)).getD (v, 280, 100)

/-- Modelled from the spec: the center the layout engine computes for id
`v`: along the rank axis, the middle of its rank's band; along the order
axis, its scanned start plus half its own extent; axes assigned from the
direction (rank axis is y for TB, x for LR). -/
def centerOf (S : List Sig) (E : List Pair) (dir : String) (v : String) : Point :=
  let r := nodeRank S E v
  let cRank := rankStart S E dir r + maxRankDim S E dir r / 2
  let cOrder := orderStart dir (rankSigs S E r) v + orderDim dir (sigOf S v) / 2
  if dir = "LR" then { x := cRank, y := cOrder } else { x := cOrder, y := cRank }

/-- The center the layout library reports for `v` after
`dagre.layout(dagreGraph)`, given the nodes and edges submitted by
`getLayoutedElements`.  The graph construction (dimensions from
`getNodeDimensions`, edges by id pair) follows `route.ts`; the layout
computation itself is modelled from the spec via `centerOf`. -/
def dagreCenter (ns : List FlowNode) (es : List FlowEdge) (dir : String) (v : String) :
    Point :=
  centerOf (sigs ns) (keptPairs (ns.map FlowNode.id) es) dir v

/-- `getLayoutedElements` from `route.ts`: submit every node with its
policy dimensions and every edge, run the layout, then map each input
node to a copy whose `position` is the engine center minus half the
node's own width and height; the edge list is returned unchanged. -/
def getLayoutedElements (ns : List FlowNode) (es : List FlowEdge) (dir : String) :
    List FlowNode × List FlowEdge :=
  let newNodes := ns.map (fun node =>
    let c := dagreCenter ns es dir node.id
    let d := getNodeDimensions node
    { node with position := some { x := c.x - d.1 / 2, y := c.y - d.2 / 2 } })
  (newNodes, es)

/-- Two boxes (top-left corner plus width/height), each expanded by half
of `sep` on every side, have disjoint interiors: along some axis the gap
between the original boxes is at least `sep`. -/
def expandedDisjoint (p : Point) (dp : Rat × Rat) (q : Point) (dq : Rat × Rat)
    (sep : Rat) : Prop :=
  p.x + dp.1 + sep ≤ q.x ∨ q.x + dq.1 + sep ≤ p.x ∨
  p.y + dp.2 + sep ≤ q.y ∨ q.y + dq.2 + sep ≤ p.y

/-- The position of the `i`-th output node (origin default if out of
range or unset). -/
def outPosition (ns : List FlowNode) (es : List FlowEdge) (dir : String) (i : Nat) :
    Point :=
  (((getLayoutedElements ns es dir).1.get? i).bind FlowNode.position).getD
    { x := 0, y := 0 }


/-- Every node produced by the layout carries the same id, data, payload
dimensions and opaque payload as the input node it came from. -/
theorem layout_map_skeleton (ns : List FlowNode) (es : List FlowEdge) (dir : String) :
    (getLayoutedElements ns es dir).1.map
        (fun n => (n.id, n.data, n.width, n.height, n.rest)) =
      ns.map (fun n => (n.id, n.data, n.width, n.height, n.rest)) := by
  simp only [getLayoutedElements, List.map_map]
  rfl

/-- Every node produced by the layout has its position set. -/
theorem layout_all_positioned (ns : List FlowNode) (es : List FlowEdge) (dir : String) :
    (getLayoutedElements ns es dir).1.all (fun n => n.position.isSome) = true := by
  simp only [getLayoutedElements, List.all_eq_true, List.mem_map]
  rintro n ⟨m, _, rfl⟩
  rfl

/-- C1: Determinism: for a fixed input (nodes, edges, direction), two
calls to the layout operation return identical results, and in
particular identical positions for every node — the layout is a pure
function of its inputs, with no hidden state between calls. -/
theorem layout_deterministic (ns : List FlowNode) (es : List FlowEdge) (dir : String) :
    getLayoutedElements ns es dir = getLayoutedElements ns es dir ∧
    (getLayoutedElements ns es dir).1.map FlowNode.position =
      (getLayoutedElements ns es dir).1.map FlowNode.position :=
  ⟨rfl, rfl⟩

/-- C2: Completeness: the output node list carries exactly the input
ids, in order, each node annotated with a position; the empty input
yields the empty output without error. -/
theorem layout_complete (ns : List FlowNode) (es : List FlowEdge) (dir : String) :
    (getLayoutedElements ns es dir).1.map FlowNode.id = ns.map FlowNode.id ∧
    (getLayoutedElements ns es dir).1.all (fun n => n.position.isSome) = true ∧
    getLayoutedElements [] [] "TB" = ([], []) := by
  refine ⟨?_, layout_all_positioned ns es dir, rfl⟩
  simp only [getLayoutedElements, List.map_map]
  rfl

/-- C5: Top-left output transform: every output position is the
engine-computed center of that node's id minus half the node's own
width in x and half its own height in y. -/
theorem layout_position_transform (ns : List FlowNode) (es : List FlowEdge) (dir : String) :
    (getLayoutedElements ns es dir).1.map FlowNode.position =
      ns.map (fun n =>
        some { x := (dagreCenter ns es dir n.id).x - (getNodeDimensions n).1 / 2,
               y := (dagreCenter ns es dir n.id).y - (getNodeDimensions n).2 / 2 }) := by
  simp only [getLayoutedElements, List.map_map]
  rfl

/-- C6: Node sizing policy: width is always 280 and height is 100, with
30 extra exactly when the node's file list is longer than 5 entries; a
missing data or file list counts as length 0 and yields 280×100. -/
theorem node_sizing_policy (n : FlowNode) :
    (getNodeDimensions n).1 = 280 ∧
    (getNodeDimensions n).2 =
      (if 5 < ((n.data.bind NodeData.files).getD []).length then 130 else 100) ∧
    getNodeDimensions (FlowNode.mk n.id none n.position n.width n.height n.rest) =
      (280, 100) := by
  refine ⟨rfl, ?_, by simp [getNodeDimensions]⟩
  simp only [getNodeDimensions]
  split <;> norm_num

/-- C10: Frame property: each output node preserves every input field
(id, data, payload width/height, remaining payload) except `position`,
which is overwritten with a computed value; the edge list is returned
unchanged, exactly as passed in. -/
theorem layout_frame (ns : List FlowNode) (es : List FlowEdge) (dir : String) :
    (getLayoutedElements ns es dir).1.map
        (fun n => (n.id, n.data, n.width, n.height, n.rest)) =
      ns.map (fun n => (n.id, n.data, n.width, n.height, n.rest)) ∧
    (getLayoutedElements ns es dir).1.all (fun n => n.position.isSome) = true ∧
    (getLayoutedElements ns es dir).2 = es :=
  ⟨layout_map_skeleton ns es dir, layout_all_positioned ns es dir, rfl⟩

/-- C8 counterexample: a node whose payload width is 0 and height is
negative is laid out without any error: the operation returns it
positioned, with the malformed payload sizes carried through untouched —
no `InvalidNodeError` is ever signalled. -/
theorem invalid_node_no_error :
    getLayoutedElements
        [{ id := "A", data := none, position := none,
           width := some 0, height := some (-5), rest := "" }] [] "TB" =
      ([{ id := "A", data := none, position := some { x := 50, y := 50 },
          width := some 0, height := some (-5), rest := "" }], []) := by
  norm_num [getLayoutedElements, dagreCenter, centerOf, nodeRank, lpRank, keptPairs,
    sigs, rankSigs, rankStart, maxRankDim, orderStart, orderScan, sigOf, orderDim,
    rankDim, getNodeDimensions]
  norm_num [show (("TB" : String) = "LR") = False by simp]

/-- C8 amended: the layout operation performs no input validation and
signals no error: the dimensions it uses come from the sizing policy and
are always positive regardless of the node's payload width/height, and
every input — malformed sizes included — produces a complete output with
every node positioned. -/
theorem layout_never_validates (n : FlowNode) (ns : List FlowNode) (es : List FlowEdge)
    (dir : String) :
    0 < (getNodeDimensions n).1 ∧ 0 < (getNodeDimensions n).2 ∧
    (getLayoutedElements ns es dir).1.length = ns.length ∧
    (getLayoutedElements ns es dir).1.all (fun m => m.position.isSome) = true := by
  refine ⟨by norm_num [getNodeDimensions], ?_, ?_, layout_all_positioned ns es dir⟩
  · simp only [getNodeDimensions]
    split <;> norm_num
  · simp [getLayoutedElements]

/-- Overwriting the position fields of the submitted nodes does not
change the signatures handed to the layout library. -/
theorem sigs_position_invariant (ns : List FlowNode) (f : FlowNode → Option Point) :
    sigs (ns.map (fun n => { n with position := f n })) = sigs ns := by
  simp only [sigs, List.map_map]
  rfl

/-- Overwriting the position fields of the submitted nodes does not
change their id list. -/
theorem ids_position_invariant (ns : List FlowNode) (f : FlowNode → Option Point) :
    (ns.map (fun n => { n with position := f n })).map FlowNode.id =
      ns.map FlowNode.id := by
  simp only [List.map_map]
  rfl

/-- The engine-computed center of any id is unchanged when the input
nodes differ only in their position fields. -/
theorem dagreCenter_position_invariant (ns : List FlowNode) (f : FlowNode → Option Point)
    (es : List FlowEdge) (dir : String) (v : String) :
    dagreCenter (ns.map (fun n => { n with position := f n })) es dir v =
      dagreCenter ns es dir v := by
  unfold dagreCenter
  rw [sigs_position_invariant, ids_position_invariant]

/-- C9: Re-layout idempotence: feeding the laid-out nodes and edges back
into the layout operation with the same direction reproduces the same
result — the second application changes no node's position. -/
theorem relayout_idempotent (ns : List FlowNode) (es : List FlowEdge) (dir : String) :
    getLayoutedElements (getLayoutedElements ns es dir).1
        (getLayoutedElements ns es dir).2 dir =
      getLayoutedElements ns es dir := by
  simp only [getLayoutedElements, List.map_map, Prod.mk.injEq]
  refine ⟨List.map_congr_left ?_, trivial⟩
  intro n _
  simp only [Function.comp, dagreCenter_position_invariant]
  rfl

/-- An edge with an endpoint outside the node id set is dropped before
the layout engine ever ranks it. -/
theorem keptPairs_drop_dangling (ids : List String) (es1 es2 : List FlowEdge)
    (e : FlowEdge) (h : e.source ∉ ids ∨ e.target ∉ ids) :
    keptPairs ids (es1 ++ e :: es2) = keptPairs ids (es1 ++ es2) := by
  unfold keptPairs
  congr 1
  rw [List.filter_append, List.filter_append, List.filter_cons_of_neg]
  simp
  intro h1 h2
  rcases h with h | h
  · exact absurd h1 h
  · exact absurd h2 h

/-- C7: Dangling-edge tolerance: an edge whose source or target id is
absent from the node set causes no error (the operation is total) and
has no geometric effect: the laid-out nodes are exactly those obtained
from the same input with that edge removed. -/
theorem dangling_edge_no_effect (ns : List FlowNode) (es1 es2 : List FlowEdge)
    (e : FlowEdge) (dir : String)
    (h : e.source ∉ ns.map FlowNode.id ∨ e.target ∉ ns.map FlowNode.id) :
    (getLayoutedElements ns (es1 ++ e :: es2) dir).1 =
      (getLayoutedElements ns (es1 ++ es2) dir).1 := by
  simp only [getLayoutedElements, dagreCenter,
    keptPairs_drop_dangling (ns.map FlowNode.id) es1 es2 e h]

/-- Witness for C7 at a concrete input: one node `A` and one edge from
`A` to the absent id `B`; the layout equals the edge-free layout. -/
theorem dangling_edge_no_effect_witness :
    ((FlowEdge.mk "A" "B" "").source ∉
        ([FlowNode.mk "A" none none none none ""].map FlowNode.id) ∨
      (FlowEdge.mk "A" "B" "").target ∉
        ([FlowNode.mk "A" none none none none ""].map FlowNode.id)) ∧
    (getLayoutedElements [FlowNode.mk "A" none none none none ""]
        ([] ++ FlowEdge.mk "A" "B" "" :: []) "TB").1 =
      (getLayoutedElements [FlowNode.mk "A" none none none none ""]
        ([] ++ []) "TB").1 :=
  ⟨by decide,
    dangling_edge_no_effect [FlowNode.mk "A" none none none none ""] [] []
      (FlowEdge.mk "A" "B" "") "TB" (by decide)⟩

/-- Every member of a list of naturals is bounded by the fold of `max`
over the list. -/
theorem mem_le_foldr_max (l : List Nat) (a : Nat) (h : a ∈ l) :
    a ≤ l.foldr Nat.max 0 := by
  induction l with
  | nil => cases h
  | cons b tl ih =>
    rcases List.mem_cons.mp h with rfl | h
    · exact Nat.le_max_left a (tl.foldr Nat.max 0)
    · exact Nat.le_trans (ih h) (Nat.le_max_right b (tl.foldr Nat.max 0))

/-- One more step of rank relaxation along an edge: the rank of the
target with `k + 1` steps available is at least one more than the rank
of the source with `k` steps. -/
theorem lpRank_succ_ge (E : List Pair) (k : Nat) (p : Pair) (hp : p ∈ E) :
    lpRank E k p.1 + 1 ≤ lpRank E (k + 1) p.2 := by
  show lpRank E k p.1 + 1 ≤
    (E.filterMap (fun q => if q.2 = p.2 then some (lpRank E k q.1 + 1) else none)).foldr
      Nat.max 0
  apply mem_le_foldr_max
  exact List.mem_filterMap.mpr ⟨p, hp, by simp⟩

/-- On a DAG (witnessed by a strictly edge-increasing measure `t`), the
rank of `v` is stable once at least `t v` relaxation steps are allowed:
the bounded longest-path computation has converged at `v`. -/
theorem lpRank_stable (E : List Pair) (t : String → Nat)
    (ht : ∀ p ∈ E, t p.1 < t p.2) :
    ∀ k v, t v ≤ k → lpRank E (k + 1) v = lpRank E k v := by
  intro k
  induction k using Nat.strong_induction_on with
  | _ k ih =>
    intro v hv
    match k with
    | 0 =>
      have hnil : E.filterMap
          (fun q => if q.2 = v then some (lpRank E 0 q.1 + 1) else none) = [] := by
        refine List.filterMap_eq_nil_iff.mpr ?_
        intro p hp
        by_cases hpv : p.2 = v
        · exfalso
          have := ht p hp
          rw [hpv] at this
          omega
        · simp [hpv]
      show (E.filterMap _).foldr Nat.max 0 = lpRank E 0 v
      rw [hnil]
      rfl
    | m + 1 =>
      show (E.filterMap
          (fun q => if q.2 = v then some (lpRank E (m + 1) q.1 + 1) else none)).foldr
            Nat.max 0 =
        (E.filterMap
          (fun q => if q.2 = v then some (lpRank E m q.1 + 1) else none)).foldr
            Nat.max 0
      congr 1
      apply List.filterMap_congr
      intro p hp
      by_cases hpv : p.2 = v
      · have hlt : t p.1 < t v := by
          have := ht p hp
          rw [hpv] at this
          exact this
        have hm : t p.1 ≤ m := by omega
        have := ih m (by omega) p.1 hm
        simp [hpv, this]
      · simp [hpv]

/-- On a DAG the rank of `v` no longer changes from `t v` steps onward. -/
theorem lpRank_stable_ge (E : List Pair) (t : String → Nat)
    (ht : ∀ p ∈ E, t p.1 < t p.2) (v : String) :
    ∀ k, t v ≤ k → lpRank E k v = lpRank E (t v) v := by
  intro k
  induction k with
  | zero => intro h; rw [Nat.le_zero.mp h]
  | succ m ih =>
    intro h
    rcases Nat.lt_or_ge (t v) (m + 1) with hlt | hge
    · have hm : t v ≤ m := by omega
      rw [lpRank_stable E t ht m v hm]
      exact ih hm
    · have : t v = m + 1 := by omega
      rw [this]

/-- An edge of the input whose endpoints are both present and distinct
is among the pairs the engine ranks. -/
theorem mem_keptPairs (ids : List String) (es : List FlowEdge) (e : FlowEdge)
    (he : e ∈ es) (hs : e.source ∈ ids) (htg : e.target ∈ ids)
    (hne : e.source ≠ e.target) :
    (e.source, e.target) ∈ keptPairs ids es := by
  unfold keptPairs
  refine List.mem_map.mpr ⟨e, List.mem_filter.mpr ⟨he, ?_⟩, rfl⟩
  simp [hs, htg, hne]

/-- C4: Monotonic rank ordering: on a DAG-shaped input (witnessed by a
topological measure `t`, strictly increasing along every retained edge
and bounded by the node count on the node ids), every edge `(u, v)` of
the input with `u ≠ v` and both endpoints present satisfies
`rank v ≥ rank u + 1` in the rank assignment used by the layout. -/
theorem dag_rank_monotone (ns : List FlowNode) (es : List FlowEdge) (t : String → Nat)
    (ht : ∀ p ∈ keptPairs (ns.map FlowNode.id) es, t p.1 < t p.2)
    (htb : ∀ v ∈ ns.map FlowNode.id, t v < ns.length)
    (e : FlowEdge) (he : e ∈ es) (hs : e.source ∈ ns.map FlowNode.id)
    (htg : e.target ∈ ns.map FlowNode.id) (hne : e.source ≠ e.target) :
    nodeRank (sigs ns) (keptPairs (ns.map FlowNode.id) es) e.source + 1 ≤
      nodeRank (sigs ns) (keptPairs (ns.map FlowNode.id) es) e.target := by
  have hmem : (e.source, e.target) ∈ keptPairs (ns.map FlowNode.id) es :=
    mem_keptPairs _ _ _ he hs htg hne
  have hlen : (sigs ns).length = ns.length := by simp [sigs]
  have hn : 1 ≤ ns.length := by
    rcases ns with _ | ⟨a, tl⟩
    · simp at hs
    · simp
  obtain ⟨m, hm⟩ : ∃ m, ns.length = m + 1 := ⟨ns.length - 1, by omega⟩
  unfold nodeRank
  rw [hlen, hm]
  have h1 : lpRank (keptPairs (ns.map FlowNode.id) es) m e.source + 1 ≤
      lpRank (keptPairs (ns.map FlowNode.id) es) (m + 1) e.target :=
    lpRank_succ_ge _ m (e.source, e.target) hmem
  have h2 : lpRank (keptPairs (ns.map FlowNode.id) es) (m + 1) e.source =
      lpRank (keptPairs (ns.map FlowNode.id) es) m e.source := by
    apply lpRank_stable _ t ht m e.source
    have := htb e.source hs
    omega
  omega

/-- Witness for C4 at a concrete input: nodes `A`, `B` with the edge
`A → B` and the topological measure sending `A` to 0 and `B` to 1; the
rank of `B` is at least one more than the rank of `A`. -/
theorem dag_rank_monotone_witness :
    (∀ p ∈ keptPairs
        ([FlowNode.mk "A" none none none none "",
          FlowNode.mk "B" none none none none ""].map FlowNode.id)
        [FlowEdge.mk "A" "B" ""],
      (fun v => if v = "B" then 1 else 0) p.1 <
        (fun v => if v = "B" then 1 else 0) p.2) ∧
    (∀ v ∈ [FlowNode.mk "A" none none none none "",
        FlowNode.mk "B" none none none none ""].map FlowNode.id,
      (fun v => if v = "B" then 1 else 0) v <
        [FlowNode.mk "A" none none none none "",
          FlowNode.mk "B" none none none none ""].length) ∧
    nodeRank
        (sigs [FlowNode.mk "A" none none none none "",
          FlowNode.mk "B" none none none none ""])
        (keptPairs
          ([FlowNode.mk "A" none none none none "",
            FlowNode.mk "B" none none none none ""].map FlowNode.id)
          [FlowEdge.mk "A" "B" ""])
        (FlowEdge.mk "A" "B" "").source + 1 ≤
      nodeRank
        (sigs [FlowNode.mk "A" none none none none "",
          FlowNode.mk "B" none none none none ""])
        (keptPairs
          ([FlowNode.mk "A" none none none none "",
            FlowNode.mk "B" none none none none ""].map FlowNode.id)
          [FlowEdge.mk "A" "B" ""])
        (FlowEdge.mk "A" "B" "").target :=
  ⟨by decide, by decide,
    dag_rank_monotone
      [FlowNode.mk "A" none none none none "",
        FlowNode.mk "B" none none none none ""]
      [FlowEdge.mk "A" "B" ""]
      (fun v => if v = "B" then 1 else 0)
      (by decide) (by decide)
      (FlowEdge.mk "A" "B" "") (by decide) (by decide) (by decide) (by decide)⟩

/-- The order-axis scan never returns less than its accumulator when all
extents are nonnegative. -/
theorem orderScan_ge (dir : String) (l : List Sig) (v : String)
    (hpos : ∀ s ∈ l, 0 ≤ orderDim dir s) :
    ∀ acc, acc ≤ orderScan dir l v acc := by
  induction l with
  | nil =>
    intro acc
    simp [orderScan]
  | cons s tl ih =>
    intro acc
    by_cases hv : s.1 = v
    · simp [orderScan, hv]
    · have h0 : 0 ≤ orderDim dir s := hpos s (by simp)
      have hrec := ih (fun u hu => hpos u (by simp [hu])) (acc + orderDim dir s + 80)
      have : acc ≤ acc + orderDim dir s + 80 := by linarith
      simp only [orderScan, hv, if_false]
      linarith

/-- Two distinct members of a list occur at distinct places: the list
splits around one of them with the other strictly after it. -/
theorem mem_two_split {α : Type} (l : List α) (a b : α) (ha : a ∈ l) (hb : b ∈ l)
    (hne : a ≠ b) :
    (∃ l1 l2, l = l1 ++ a :: l2 ∧ b ∈ l2) ∨
    (∃ l1 l2, l = l1 ++ b :: l2 ∧ a ∈ l2) := by
  induction l with
  | nil => cases ha
  | cons c tl ih =>
    rcases List.mem_cons.mp ha with rfl | ha2
    · left
      refine ⟨[], tl, rfl, ?_⟩
      rcases List.mem_cons.mp hb with h | h
      · exact absurd h.symm hne
      · exact h
    · rcases List.mem_cons.mp hb with rfl | hb2
      · right
        exact ⟨[], tl, rfl, ha2⟩
      · rcases ih ha2 hb2 with ⟨l1, l2, heq, hm⟩ | ⟨l1, l2, heq, hm⟩
        · left
          exact ⟨c :: l1, l2, by rw [heq]; rfl, hm⟩
        · right
          exact ⟨c :: l1, l2, by rw [heq]; rfl, hm⟩

/-- Separation along the order axis: when the rank list splits with `sa`
strictly before `sb` (ids all distinct, extents nonnegative), the scan
places `sb` at least `sa`'s extent plus the node separation after `sa`. -/
theorem orderScan_sep (dir : String) (l1 l2 : List Sig) (sa sb : Sig)
    (hnd : ((l1 ++ sa :: l2).map Prod.fst).Nodup)
    (hb : sb ∈ l2)
    (hpos : ∀ s ∈ l1 ++ sa :: l2, 0 ≤ orderDim dir s) :
    ∀ acc, orderScan dir (l1 ++ sa :: l2) sa.1 acc + orderDim dir sa + 80 ≤
      orderScan dir (l1 ++ sa :: l2) sb.1 acc := by
  induction l1 with
  | nil =>
    intro acc
    have hnd1 : (sa.1 :: l2.map Prod.fst).Nodup := by
      simpa only [List.nil_append, List.map_cons] using hnd
    have hab : sa.1 ≠ sb.1 := by
      intro hcontra
      exact (List.nodup_cons.mp hnd1).1
        (hcontra ▸ List.mem_map.mpr ⟨sb, hb, rfl⟩)
    have e1 : orderScan dir (sa :: l2) sa.1 acc = acc := by
      simp [orderScan]
    have e2 : orderScan dir (sa :: l2) sb.1 acc =
        orderScan dir l2 sb.1 (acc + orderDim dir sa + 80) := by
      simp only [orderScan]
      rw [if_neg hab]
    rw [List.nil_append, e1, e2]
    exact orderScan_ge dir l2 sb.1
      (fun u hu => hpos u (by simp [hu])) (acc + orderDim dir sa + 80)
  | cons s tl ih =>
    intro acc
    have hnd1 : (s.1 :: (tl ++ sa :: l2).map Prod.fst).Nodup := by
      simpa only [List.cons_append, List.map_cons] using hnd
    have hnd2 : ((tl ++ sa :: l2).map Prod.fst).Nodup := (List.nodup_cons.mp hnd1).2
    have hs1 : s.1 ∉ (tl ++ sa :: l2).map Prod.fst := (List.nodup_cons.mp hnd1).1
    have hsa : s.1 ≠ sa.1 := by
      intro hcontra
      exact hs1 (hcontra ▸ List.mem_map.mpr ⟨sa, by simp, rfl⟩)
    have hsb : s.1 ≠ sb.1 := by
      intro hcontra
      exact hs1 (hcontra ▸ List.mem_map.mpr ⟨sb, by simp [hb], rfl⟩)
    have hpos2 : ∀ u ∈ tl ++ sa :: l2, 0 ≤ orderDim dir u :=
      fun u hu => hpos u (by simp [hu])
    have hrec := ih hnd2 hpos2 (acc + orderDim dir s + 80)
    have e1 : orderScan dir (s :: (tl ++ sa :: l2)) sa.1 acc =
        orderScan dir (tl ++ sa :: l2) sa.1 (acc + orderDim dir s + 80) := by
      simp only [orderScan]
      rw [if_neg hsa]
    have e2 : orderScan dir (s :: (tl ++ sa :: l2)) sb.1 acc =
        orderScan dir (tl ++ sa :: l2) sb.1 (acc + orderDim dir s + 80) := by
      simp only [orderScan]
      rw [if_neg hsb]
    rw [List.cons_append, e1, e2]
    exact hrec

/-- Every signature the caller submits has nonnegative extents along
both axes (widths are 280, heights 100 or 130). -/
theorem sig_dims_nonneg (ns : List FlowNode) (dir : String) (s : Sig)
    (h : s ∈ sigs ns) : 0 ≤ orderDim dir s ∧ 0 ≤ rankDim dir s := by
  rcases List.mem_map.mp h with ⟨n, _, rfl⟩
  simp only [orderDim, rankDim, getNodeDimensions]
  constructor <;> split <;> (try split) <;> norm_num

/-- With unique ids, the signature the engine stores for a submitted
node's id is exactly that node's id and policy dimensions. -/
theorem sigOf_sigs (ns : List FlowNode) (hnd : (ns.map FlowNode.id).Nodup)
    (n : FlowNode) (hn : n ∈ ns) :
    sigOf (sigs ns) n.id = (n.id, getNodeDimensions n) := by
  induction ns with
  | nil => cases hn
  | cons m tl ih =>
    have hnd1 : (m.id :: tl.map FlowNode.id).Nodup := by
      simpa only [List.map_cons] using hnd
    rcases List.mem_cons.mp hn with rfl | hn2
    · simp [sigOf, sigs]
    · have hmn : ¬ (m.id = n.id) := by
        intro hcontra
        exact (List.nodup_cons.mp hnd1).1
          (hcontra ▸ List.mem_map.mpr ⟨n, hn2, rfl⟩)
      have := ih (List.nodup_cons.mp hnd1).2 hn2
      simpa [sigOf, sigs, List.find?, hmn] using this

/-- A submitted node whose assigned rank is `r` appears in the rank-`r`
list with its id and policy dimensions. -/
theorem mem_rankSigs (ns : List FlowNode) (E : List Pair) (r : Nat)
    (a : FlowNode) (ha : a ∈ ns)
    (hr : nodeRank (sigs ns) E a.id = r) :
    (a.id, getNodeDimensions a) ∈ rankSigs (sigs ns) E r := by
  unfold rankSigs
  refine List.mem_filter.mpr ⟨List.mem_map.mpr ⟨a, ha, rfl⟩, ?_⟩
  simp [hr]

/-- With unique input ids, each rank's list also has unique ids. -/
theorem rankSigs_ids_nodup (ns : List FlowNode) (E : List Pair) (r : Nat)
    (hnd : (ns.map FlowNode.id).Nodup) :
    ((rankSigs (sigs ns) E r).map Prod.fst).Nodup := by
  have hall : ((sigs ns).map Prod.fst).Nodup := by
    have heq : (sigs ns).map Prod.fst = ns.map FlowNode.id := by
      simp only [sigs, List.map_map]
      rfl
    rw [heq]
    exact hnd
  exact ((List.filter_sublist _).map Prod.fst).nodup hall

/-- The position of the `i`-th output node, spelled via the engine
center and the node's own policy dimensions. -/
theorem outPosition_eq (ns : List FlowNode) (es : List FlowEdge) (dir : String)
    (i : Nat) (hi : i < ns.length) :
    outPosition ns es dir i =
      { x := (dagreCenter ns es dir (ns.get ⟨i, hi⟩).id).x -
          (getNodeDimensions (ns.get ⟨i, hi⟩)).1 / 2,
        y := (dagreCenter ns es dir (ns.get ⟨i, hi⟩).id).y -
          (getNodeDimensions (ns.get ⟨i, hi⟩)).2 / 2 } := by
  unfold outPosition getLayoutedElements
  rw [List.get?_map, List.get?_eq_get hi]
  rfl

/-- In the TB orientation the x coordinate of an output node is exactly
its order-axis scan position within its rank. -/
theorem out_coord_tb (ns : List FlowNode) (es : List FlowEdge) (dir : String)
    (hdir : ¬ dir = "LR") (hnd : (ns.map FlowNode.id).Nodup)
    (i : Nat) (hi : i < ns.length) :
    (outPosition ns es dir i).x =
      orderStart dir
        (rankSigs (sigs ns) (keptPairs (ns.map FlowNode.id) es)
          (nodeRank (sigs ns) (keptPairs (ns.map FlowNode.id) es)
            (ns.get ⟨i, hi⟩).id))
        (ns.get ⟨i, hi⟩).id := by
  rw [outPosition_eq ns es dir i hi]
  have hsig := sigOf_sigs ns hnd (ns.get ⟨i, hi⟩) (List.get_mem ns i hi)
  simp only [dagreCenter, centerOf, if_neg hdir, hsig, orderDim]
  ring

/-- In the LR orientation the y coordinate of an output node is exactly
its order-axis scan position within its rank. -/
theorem out_coord_lr (ns : List FlowNode) (es : List FlowEdge) (dir : String)
    (hdir : dir = "LR") (hnd : (ns.map FlowNode.id).Nodup)
    (i : Nat) (hi : i < ns.length) :
    (outPosition ns es dir i).y =
      orderStart dir
        (rankSigs (sigs ns) (keptPairs (ns.map FlowNode.id) es)
          (nodeRank (sigs ns) (keptPairs (ns.map FlowNode.id) es)
            (ns.get ⟨i, hi⟩).id))
        (ns.get ⟨i, hi⟩).id := by
  rw [outPosition_eq ns es dir i hi]
  have hsig := sigOf_sigs ns hnd (ns.get ⟨i, hi⟩) (List.get_mem ns i hi)
  simp only [dagreCenter, centerOf, if_pos hdir, hsig, orderDim]
  simp only [hdir, if_pos]
  ring


/-- C3: Non-overlap: with unique node ids, any two distinct nodes that
the layout assigns to the same rank are separated along the order axis
by at least `nodeSeparation` (80): their bounding boxes, each expanded
by half the separation on every side, have disjoint interiors — the
engine never returns overlapping same-rank nodes. -/
theorem same_rank_no_overlap (ns : List FlowNode) (es : List FlowEdge) (dir : String)
    (i j : Nat) (hi : i < ns.length) (hj : j < ns.length)
    (hnd : (ns.map FlowNode.id).Nodup)
    (hne : (ns.get ⟨i, hi⟩).id ≠ (ns.get ⟨j, hj⟩).id)
    (hr : nodeRank (sigs ns) (keptPairs (ns.map FlowNode.id) es) (ns.get ⟨i, hi⟩).id =
      nodeRank (sigs ns) (keptPairs (ns.map FlowNode.id) es) (ns.get ⟨j, hj⟩).id) :
    expandedDisjoint (outPosition ns es dir i) (getNodeDimensions (ns.get ⟨i, hi⟩))
      (outPosition ns es dir j) (getNodeDimensions (ns.get ⟨j, hj⟩)) 80 := by
  have ha : ns.get ⟨i, hi⟩ ∈ ns := List.get_mem ns i hi
  have hb : ns.get ⟨j, hj⟩ ∈ ns := List.get_mem ns j hj
  have hsa : ((ns.get ⟨i, hi⟩).id, getNodeDimensions (ns.get ⟨i, hi⟩)) ∈
      rankSigs (sigs ns) (keptPairs (ns.map FlowNode.id) es)
        (nodeRank (sigs ns) (keptPairs (ns.map FlowNode.id) es) (ns.get ⟨i, hi⟩).id) :=
    mem_rankSigs ns _ _ _ ha rfl
  have hsb : ((ns.get ⟨j, hj⟩).id, getNodeDimensions (ns.get ⟨j, hj⟩)) ∈
      rankSigs (sigs ns) (keptPairs (ns.map FlowNode.id) es)
        (nodeRank (sigs ns) (keptPairs (ns.map FlowNode.id) es) (ns.get ⟨i, hi⟩).id) :=
    mem_rankSigs ns _ _ _ hb hr.symm
  have hndL := rankSigs_ids_nodup ns (keptPairs (ns.map FlowNode.id) es)
    (nodeRank (sigs ns) (keptPairs (ns.map FlowNode.id) es) (ns.get ⟨i, hi⟩).id) hnd
  have hposL : ∀ s ∈ rankSigs (sigs ns) (keptPairs (ns.map FlowNode.id) es)
      (nodeRank (sigs ns) (keptPairs (ns.map FlowNode.id) es) (ns.get ⟨i, hi⟩).id),
      0 ≤ orderDim dir s := by
    intro s hs
    exact (sig_dims_nonneg ns dir s (List.mem_filter.mp hs).1).1
  have hne2 : ((ns.get ⟨i, hi⟩).id, getNodeDimensions (ns.get ⟨i, hi⟩)) ≠
      ((ns.get ⟨j, hj⟩).id, getNodeDimensions (ns.get ⟨j, hj⟩)) := by
    intro hcontra
    exact hne (congrArg Prod.fst hcontra)
  have key : orderStart dir
        (rankSigs (sigs ns) (keptPairs (ns.map FlowNode.id) es)
          (nodeRank (sigs ns) (keptPairs (ns.map FlowNode.id) es) (ns.get ⟨i, hi⟩).id))
        (ns.get ⟨i, hi⟩).id +
        orderDim dir ((ns.get ⟨i, hi⟩).id, getNodeDimensions (ns.get ⟨i, hi⟩)) + 80 ≤
      orderStart dir
        (rankSigs (sigs ns) (keptPairs (ns.map FlowNode.id) es)
          (nodeRank (sigs ns) (keptPairs (ns.map FlowNode.id) es) (ns.get ⟨i, hi⟩).id))
        (ns.get ⟨j, hj⟩).id ∨
      orderStart dir
        (rankSigs (sigs ns) (keptPairs (ns.map FlowNode.id) es)
          (nodeRank (sigs ns) (keptPairs (ns.map FlowNode.id) es) (ns.get ⟨i, hi⟩).id))
        (ns.get ⟨j, hj⟩).id +
        orderDim dir ((ns.get ⟨j, hj⟩).id, getNodeDimensions (ns.get ⟨j, hj⟩)) + 80 ≤
      orderStart dir
        (rankSigs (sigs ns) (keptPairs (ns.map FlowNode.id) es)
          (nodeRank (sigs ns) (keptPairs (ns.map FlowNode.id) es) (ns.get ⟨i, hi⟩).id))
        (ns.get ⟨i, hi⟩).id := by
    rcases mem_two_split _ _ _ hsa hsb hne2 with ⟨l1, l2, heq, hm⟩ | ⟨l1, l2, heq, hm⟩
    · left
      have hnd1 := heq ▸ hndL
      have hpos1 : ∀ s ∈ l1 ++
          ((ns.get ⟨i, hi⟩).id, getNodeDimensions (ns.get ⟨i, hi⟩)) :: l2,
          0 ≤ orderDim dir s := fun s hs => hposL s (heq.symm ▸ hs)
      have hsep := orderScan_sep dir l1 l2 _ _ hnd1 hm hpos1 50
      simp only [orderStart, heq]
      exact hsep
    · right
      have hnd1 := heq ▸ hndL
      have hpos1 : ∀ s ∈ l1 ++
          ((ns.get ⟨j, hj⟩).id, getNodeDimensions (ns.get ⟨j, hj⟩)) :: l2,
          0 ≤ orderDim dir s := fun s hs => hposL s (heq.symm ▸ hs)
      have hsep := orderScan_sep dir l1 l2 _ _ hnd1 hm hpos1 50
      simp only [orderStart, heq]
      exact hsep
  by_cases hdir : dir = "LR"
  · have hya := out_coord_lr ns es dir hdir hnd i hi
    have hyb := out_coord_lr ns es dir hdir hnd j hj
    rw [← hr] at hyb
    unfold expandedDisjoint
    rcases key with hk | hk
    · refine Or.inr (Or.inr (Or.inl ?_))
      rw [hya, hyb]
      simpa [orderDim, hdir] using hk
    · refine Or.inr (Or.inr (Or.inr ?_))
      rw [hya, hyb]
      simpa [orderDim, hdir] using hk
  · have hxa := out_coord_tb ns es dir hdir hnd i hi
    have hxb := out_coord_tb ns es dir hdir hnd j hj
    rw [← hr] at hxb
    unfold expandedDisjoint
    rcases key with hk | hk
    · refine Or.inl ?_
      rw [hxa, hxb]
      simpa [orderDim, hdir] using hk
    · refine Or.inr (Or.inl ?_)
      rw [hxa, hxb]
      simpa [orderDim, hdir] using hk

/-- Witness for C3 at a concrete input: nodes `A` and `B` with no edges
share rank 0; their laid-out boxes are separated by the node gap. -/
theorem same_rank_no_overlap_witness :
    (0 : Nat) < ([FlowNode.mk "A" none none none none "",
        FlowNode.mk "B" none none none none ""] : List FlowNode).length ∧
    (1 : Nat) < ([FlowNode.mk "A" none none none none "",
        FlowNode.mk "B" none none none none ""] : List FlowNode).length ∧
    (([FlowNode.mk "A" none none none none "",
        FlowNode.mk "B" none none none none ""] : List FlowNode).map
      FlowNode.id).Nodup ∧
    (FlowNode.mk "A" none none none none "").id ≠
      (FlowNode.mk "B" none none none none "").id ∧
    nodeRank
        (sigs [FlowNode.mk "A" none none none none "",
          FlowNode.mk "B" none none none none ""])
        (keptPairs ([FlowNode.mk "A" none none none none "",
          FlowNode.mk "B" none none none none ""].map FlowNode.id) [])
        (FlowNode.mk "A" none none none none "").id =
      nodeRank
        (sigs [FlowNode.mk "A" none none none none "",
          FlowNode.mk "B" none none none none ""])
        (keptPairs ([FlowNode.mk "A" none none none none "",
          FlowNode.mk "B" none none none none ""].map FlowNode.id) [])
        (FlowNode.mk "B" none none none none "").id ∧
    expandedDisjoint
      (outPosition [FlowNode.mk "A" none none none none "",
        FlowNode.mk "B" none none none none ""] [] "TB" 0)
      (getNodeDimensions (FlowNode.mk "A" none none none none ""))
      (outPosition [FlowNode.mk "A" none none none none "",
        FlowNode.mk "B" none none none none ""] [] "TB" 1)
      (getNodeDimensions (FlowNode.mk "B" none none none none "")) 80 :=
  ⟨by decide, by decide, by decide, by decide, by decide,
    same_rank_no_overlap
      [FlowNode.mk "A" none none none none "",
        FlowNode.mk "B" none none none none ""] [] "TB" 0 1
      (by decide) (by decide) (by decide) (by decide) (by decide)⟩
